import Mathlib

/-!
Verification of the Othello/Reversi engine of the Reversi-Game project
(logic.py, env.py, heatmap.py, main.py), as a shallow embedding.

Cells hold 0 (empty), 1 (black) or -1 (white).  A board maps integer
coordinates to cell values; all game activity is confined to rows and
columns 0..7, mirroring the numpy 8x8 array of the source.  The while
loops of the source walk a ray one step at a time and check bounds
before every access; starting one step out from an in-bounds cell, such
a walk performs at most 8 bound checks before it must leave the board
(each coordinate moves monotonically), so the walks are embedded with a
fuel of 8, which is never exhausted in any reachable configuration.
-/

/-- BOARD_SIZE from constants.py. -/
def BOARD_SIZE : Int := 8

/-- BLACK disc value: black is represented by 1 (black moves first). -/
def BLACK : Int := 1

/-- WHITE disc value: white is represented by -1. -/
def WHITE : Int := -1

/-- A board: cell values indexed by (row, col). -/
abbrev Board := Int → Int → Int

/-- The bounds test 0 <= r < 8 and 0 <= c < 8 of the while loops. -/
def inB (r c : Int) : Prop := 0 ≤ r ∧ r < 8 ∧ 0 ≤ c ∧ c < 8

instance (r c : Int) : Decidable (inB r c) :=
  inferInstanceAs (Decidable (0 ≤ r ∧ r < 8 ∧ 0 ≤ c ∧ c < 8))

/-- init_board from logic.py: zeros except the four centre cells, with
    mid = 8 // 2 = 4: (3,3) = -1, (4,4) = -1, (3,4) = 1, (4,3) = 1. -/
def init_board : Board := fun r c =>
  if r = 3 ∧ c = 3 then -1
  else if r = 4 ∧ c = 4 then -1
  else if r = 3 ∧ c = 4 then 1
  else if r = 4 ∧ c = 3 then 1
  else 0

/-- The 8 ray directions of logic.py. -/
def directions : List (Int × Int) :=
  [(-1,-1),(-1,0),(-1,1),(0,-1),(0,1),(1,-1),(1,0),(1,1)]

/-- One direction of the while loop inside is_valid_move: walk from
    (r, c) in direction (dr, dc), tracking whether an opposing disc has
    been seen; an own disc after at least one opposing disc validates,
    any other cell (or leaving the board) ends the walk with false. -/
def validRay (board : Board) (player dr dc : Int) : Nat → Int → Int → Bool → Bool
  | 0, _, _, _ => false
  | fuel+1, r, c, foundOpponent =>
    if inB r c then
      if board r c = -player then validRay board player dr dc fuel (r+dr) (c+dc) true
      else if board r c = player ∧ foundOpponent = true then true
      else false
    else false

/-- is_valid_move from logic.py. -/
def is_valid_move (board : Board) (row col player : Int) : Bool :=
  if board row col ≠ 0 then false
  else directions.any fun d => validRay board player d.1 d.2 8 (row + d.1) (col + d.2) false

/-- One direction of the loop inside place_disc: walk outward
    accumulating the run of opposing discs (to_flip); reaching an own
    disc with a non-empty accumulated run returns the run to be flipped;
    every other exit (empty cell, own disc with empty run, off board)
    flips nothing. -/
def captureRun (board : Board) (player dr dc : Int) : Nat → Int → Int → List (Int × Int) → List (Int × Int)
  | 0, _, _, _ => []
  | fuel+1, r, c, toFlip =>
    if inB r c then
      if board r c = -player then captureRun board player dr dc fuel (r+dr) (c+dc) (toFlip ++ [(r, c)])
      else if board r c = player ∧ toFlip ≠ [] then toFlip
      else []
    else []

/-- Overwrite one cell of a board. -/
def setCell (b : Board) (r c v : Int) : Board := fun x y => if x = r ∧ y = c then v else b x y

/-- Flip every listed cell to the player. -/
def flipCells (b : Board) (player : Int) (l : List (Int × Int)) : Board :=
  l.foldl (fun bd p => setCell bd p.1 p.2 player) b

/-- place_disc from logic.py: set the target cell to the player, then
    process the 8 directions in source order on the evolving board,
    flipping each direction's returned run. -/
def place_disc (board : Board) (row col player : Int) : Board :=
  directions.foldl
    (fun b d => flipCells b player (captureRun b player d.1 d.2 8 (row + d.1) (col + d.2) []))
    (setCell board row col player)

/-- The 64 board cells in the row-major order scanned by logic.py. -/
def allCells : List (Int × Int) :=
  (List.range 8).flatMap fun r => (List.range 8).map fun (c : Nat) => ((r : Int), (c : Int))

/-- get_valid_moves from logic.py. -/
def get_valid_moves (board : Board) (player : Int) : List (Int × Int) :=
  allCells.filter fun p => is_valid_move board p.1 p.2 player

/-- has_valid_moves from logic.py (the scan stops at the first hit). -/
def has_valid_moves (board : Board) (player : Int) : Bool :=
  allCells.any fun p => is_valid_move board p.1 p.2 player

/-- count_discs from logic.py: (number of 1 cells, number of -1 cells). -/
def count_discs (board : Board) : Nat × Nat :=
  ((allCells.filter fun p => board p.1 p.2 = 1).length,
   (allCells.filter fun p => board p.1 p.2 = -1).length)

/-- The empty-cell tally, as np.sum(board == 0) would report it. -/
def count_empty (board : Board) : Nat :=
  (allCells.filter fun p => board p.1 p.2 = 0).length

/-! ### C3: initial layout -/

/-- C3: init_board is all empty except the four centre cells: with
    mid = 4, (3,3) and (4,4) hold WHITE and (3,4) and (4,3) hold BLACK,
    giving exactly 2 black discs, 2 white discs and 60 empty cells. -/
theorem C3_initial_layout :
    init_board 3 3 = WHITE ∧ init_board 4 4 = WHITE ∧
    init_board 3 4 = BLACK ∧ init_board 4 3 = BLACK ∧
    (∀ r c : Int, ¬((r = 3 ∧ c = 3) ∨ (r = 4 ∧ c = 4) ∨ (r = 3 ∧ c = 4) ∨ (r = 4 ∧ c = 3)) →
      init_board r c = 0) ∧
    count_discs init_board = (2, 2) ∧ count_empty init_board = 60 := by
  refine ⟨rfl, rfl, rfl, rfl, ?_, by decide, by decide⟩
  intro r c h
  unfold init_board
  split_ifs with h1 h2 h3 h4 <;> first | rfl | exact absurd (by tauto) h

/-! ### Walk characterisation for the legality check -/

/-- Characterisation of one validation walk: starting at (r, c) it
    succeeds exactly when some cell k steps further out (0-indexed from
    the start) holds an own disc, every earlier visited cell holds an
    opposing disc, everything visited is in bounds, and an opposing disc
    was seen (already before the start, or on the walk). -/
theorem validRay_iff (board : Board) (player dr dc : Int) (hp : player ≠ 0) :
    ∀ (fuel : Nat) (r c : Int) (b : Bool),
      validRay board player dr dc fuel r c b = true ↔
        ∃ k : Nat, k < fuel ∧
          (∀ i : Nat, i < k → inB (r + (i : Int)*dr) (c + (i : Int)*dc) ∧
            board (r + (i : Int)*dr) (c + (i : Int)*dc) = -player) ∧
          inB (r + (k : Int)*dr) (c + (k : Int)*dc) ∧
          board (r + (k : Int)*dr) (c + (k : Int)*dc) = player ∧
          (b = true ∨ 1 ≤ k) := by
  have hne : -player ≠ player := by omega
  intro fuel
  induction fuel with
  | zero =>
    intro r c b
    constructor
    · intro h; simp [validRay] at h
    · rintro ⟨k, hk, _⟩; exact absurd hk (by omega)
  | succ n ih =>
    intro r c b
    constructor
    · intro h
      simp only [validRay] at h
      by_cases hin : inB r c
      · rw [if_pos hin] at h
        by_cases hopp : board r c = -player
        · rw [if_pos hopp] at h
          obtain ⟨k, hk, hrun, hkin, hkown, _⟩ := (ih (r+dr) (c+dc) true).mp h
          have e1 : ∀ j : Nat, r + ((j+1 : Nat) : Int) * dr = (r + dr) + (j : Int) * dr := by
            intro j; push_cast; ring
          have e2 : ∀ j : Nat, c + ((j+1 : Nat) : Int) * dc = (c + dc) + (j : Int) * dc := by
            intro j; push_cast; ring
          refine ⟨k+1, by omega, ?_, ?_, ?_, Or.inr (by omega)⟩
          · intro i hi
            match i with
            | 0 => simpa using ⟨hin, hopp⟩
            | (j+1) =>
              rw [e1 j, e2 j]
              exact hrun j (by omega)
          · rw [e1 k, e2 k]; exact hkin
          · rw [e1 k, e2 k]; exact hkown
        · rw [if_neg hopp] at h
          by_cases hown : board r c = player ∧ b = true
          · exact ⟨0, by omega, by intro i hi; exact absurd hi (by omega),
              by simpa using hin, by simpa using hown.1, Or.inl hown.2⟩
          · rw [if_neg hown] at h; simp at h
      · rw [if_neg hin] at h; simp at h
    · rintro ⟨k, hk, hrun, hkin, hkown, hb⟩
      simp only [validRay]
      by_cases hin : inB r c
      · rw [if_pos hin]
        by_cases hopp : board r c = -player
        · rw [if_pos hopp]
          apply (ih (r+dr) (c+dc) true).mpr
          cases k with
          | zero =>
            have h0 : board r c = player := by simpa using hkown
            exact absurd (hopp.symm.trans h0) hne
          | succ j =>
            have e1 : ∀ m : Nat, r + ((m+1 : Nat) : Int) * dr = (r + dr) + (m : Int) * dr := by
              intro m; push_cast; ring
            have e2 : ∀ m : Nat, c + ((m+1 : Nat) : Int) * dc = (c + dc) + (m : Int) * dc := by
              intro m; push_cast; ring
            refine ⟨j, by omega, ?_, ?_, ?_, Or.inl rfl⟩
            · intro i hi
              have hstep := hrun (i+1) (by omega)
              rw [e1 i, e2 i] at hstep
              exact hstep
            · have := hkin; rw [e1 j, e2 j] at this; exact this
            · have := hkown; rw [e1 j, e2 j] at this; exact this
        · rw [if_neg hopp]
          cases k with
          | succ j => exact absurd (by simpa using (hrun 0 (by omega)).2) hopp
          | zero =>
            have h0 : board r c = player := by simpa using hkown
            have hb0 : b = true := by
              rcases hb with h | h
              · exact h
              · exact absurd h (by omega)
            rw [if_pos ⟨h0, hb0⟩]
      · exfalso
        cases k with
        | zero => exact hin (by simpa using hkin)
        | succ j => exact hin (by simpa using (hrun 0 (by omega)).1)

/-- From an in-bounds origin, a cell n unit steps out along any of the 8
    directions can only be in bounds when n stays at most 7. -/
theorem dir_bound {dr dc : Int} (hd : (dr, dc) ∈ directions) (row col : Int) (n : Nat)
    (hin : inB row col) (hn : inB (row + (n : Int)*dr) (col + (n : Int)*dc)) : n ≤ 7 := by
  simp only [directions, List.mem_cons, List.not_mem_nil, or_false, Prod.mk.injEq] at hd
  unfold inB at hin hn
  rcases hd with ⟨h1,h2⟩|⟨h1,h2⟩|⟨h1,h2⟩|⟨h1,h2⟩|⟨h1,h2⟩|⟨h1,h2⟩|⟨h1,h2⟩|⟨h1,h2⟩ <;>
    subst h1 <;> subst h2 <;> omega

/-! ### C1: legality soundness -/

/-- A run of k opposing discs at steps 1..k outward from (row, col)
    along (dr, dc), immediately followed at step k+1 by an own disc,
    every step in bounds, all judged against the given board. -/
def oppRun (board : Board) (player row col dr dc : Int) (k : Nat) : Prop :=
  (∀ i : Nat, 1 ≤ i → i ≤ k →
    inB (row + (i : Int)*dr) (col + (i : Int)*dc) ∧
    board (row + (i : Int)*dr) (col + (i : Int)*dc) = -player) ∧
  inB (row + ((k : Int)+1)*dr) (col + ((k : Int)+1)*dc) ∧
  board (row + ((k : Int)+1)*dr) (col + ((k : Int)+1)*dc) = player

/-- The claim's condition on one ray: walking outward from (row, col)
    the ray meets one or more opposing discs immediately followed by an
    own disc, before leaving the board or hitting an empty cell. -/
def raySpec (board : Board) (player row col dr dc : Int) : Prop :=
  ∃ k : Nat, 1 ≤ k ∧ oppRun board player row col dr dc k

/-- The walk of is_valid_move along one of the 8 directions, from one
    step out of an in-bounds origin, decides exactly raySpec. -/
theorem validRay_iff_raySpec (board : Board) (player row col : Int) {dr dc : Int}
    (hp : player ≠ 0) (hd : (dr, dc) ∈ directions) (hin : inB row col) :
    validRay board player dr dc 8 (row + dr) (col + dc) false = true ↔
      raySpec board player row col dr dc := by
  rw [validRay_iff board player dr dc hp 8 (row + dr) (col + dc) false]
  have e1 : ∀ j : Nat, (row + dr) + (j : Int) * dr = row + ((j+1 : Nat) : Int) * dr := by
    intro j; push_cast; ring
  have e2 : ∀ j : Nat, (col + dc) + (j : Int) * dc = col + ((j+1 : Nat) : Int) * dc := by
    intro j; push_cast; ring
  constructor
  · rintro ⟨k, hk8, hrun, hkin, hkown, hb⟩
    have hk1 : 1 ≤ k := by
      rcases hb with h | h
      · exact absurd h (by simp)
      · exact h
    refine ⟨k, hk1, ?_, ?_, ?_⟩
    · intro i h1 h2
      have hstep := hrun (i-1) (by omega)
      rw [e1 (i-1), e2 (i-1)] at hstep
      have hi : i - 1 + 1 = i := by omega
      rw [hi] at hstep
      exact hstep
    · have := hkin; rw [e1 k, e2 k] at this
      have hc : ((k+1 : Nat) : Int) = (k : Int) + 1 := by push_cast; ring
      rw [hc] at this; exact this
    · have := hkown; rw [e1 k, e2 k] at this
      have hc : ((k+1 : Nat) : Int) = (k : Int) + 1 := by push_cast; ring
      rw [hc] at this; exact this
  · rintro ⟨k, hk1, hrun, hkin, hkown⟩
    have hc : ((k+1 : Nat) : Int) = (k : Int) + 1 := by push_cast; ring
    have hbound : k + 1 ≤ 7 := by
      apply dir_bound hd row col (k+1) hin
      rw [hc]; exact hkin
    refine ⟨k, by omega, ?_, ?_, ?_, Or.inr hk1⟩
    · intro i hi
      have hstep := hrun (i+1) (by omega) (by omega)
      rw [e1 i, e2 i]
      exact hstep
    · rw [e1 k, e2 k, hc]; exact hkin
    · rw [e1 k, e2 k, hc]; exact hkown

/-- C1: for every board, in-bounds cell and player colour, on an empty
    target is_valid_move holds iff some one of the 8 rays carries one or
    more opposing discs immediately followed by an own disc; on a
    non-empty target it is false. -/
theorem C1_legality (board : Board) (row col player : Int)
    (hin : inB row col) (hp : player = BLACK ∨ player = WHITE) :
    (board row col = 0 →
      (is_valid_move board row col player = true ↔
        ∃ d ∈ directions, raySpec board player row col d.1 d.2)) ∧
    (board row col ≠ 0 → is_valid_move board row col player = false) := by
  have hp0 : player ≠ 0 := by rcases hp with h | h <;> rw [h] <;> decide
  constructor
  · intro h0
    unfold is_valid_move
    rw [if_neg (by simpa using h0), List.any_eq_true]
    constructor
    · rintro ⟨d, hd, hval⟩
      exact ⟨d, hd, (validRay_iff_raySpec board player row col hp0 (by simpa using hd) hin).mp hval⟩
    · rintro ⟨d, hd, hray⟩
      exact ⟨d, hd, (validRay_iff_raySpec board player row col hp0 (by simpa using hd) hin).mpr hray⟩
  · intro h0
    unfold is_valid_move
    rw [if_pos (by simpa using h0)]

/-- Witness for C1 at a concrete input: black at (2, 3) on the initial
    board is valid, so some ray realises the capture pattern there. -/
theorem C1_legality_witness :
    ∃ d ∈ directions, raySpec init_board BLACK 2 3 d.1 d.2 :=
  ((C1_legality init_board 2 3 BLACK (by decide) (Or.inl rfl)).1 (by decide)).mp (by decide)

/-! ### Capture-walk characterisation for place_disc -/

/-- Characterisation of one capture walk: a cell belongs to its result
    exactly when some cell k steps from the start holds an own disc with
    every earlier cell an in-bounds opposing disc, the accumulated run
    is then non-empty, and the cell is in the accumulator or on the
    walked run. -/
theorem mem_captureRun (board : Board) (player dr dc : Int) (hp : player ≠ 0) :
    ∀ (fuel : Nat) (r c : Int) (acc : List (Int × Int)) (x : Int × Int),
      x ∈ captureRun board player dr dc fuel r c acc ↔
        ∃ k : Nat, k < fuel ∧
          (∀ i : Nat, i < k → inB (r + (i : Int)*dr) (c + (i : Int)*dc) ∧
            board (r + (i : Int)*dr) (c + (i : Int)*dc) = -player) ∧
          inB (r + (k : Int)*dr) (c + (k : Int)*dc) ∧
          board (r + (k : Int)*dr) (c + (k : Int)*dc) = player ∧
          (acc ≠ [] ∨ 1 ≤ k) ∧
          (x ∈ acc ∨ ∃ j : Nat, j < k ∧ x = (r + (j : Int)*dr, c + (j : Int)*dc)) := by
  have hne : -player ≠ player := by omega
  intro fuel
  induction fuel with
  | zero =>
    intro r c acc x
    constructor
    · intro h; simp [captureRun] at h
    · rintro ⟨k, hk, _⟩; exact absurd hk (by omega)
  | succ n ih =>
    intro r c acc x
    have e1 : ∀ j : Nat, (r + dr) + (j : Int) * dr = r + ((j+1 : Nat) : Int) * dr := by
      intro j; push_cast; ring
    have e2 : ∀ j : Nat, (c + dc) + (j : Int) * dc = c + ((j+1 : Nat) : Int) * dc := by
      intro j; push_cast; ring
    constructor
    · intro h
      simp only [captureRun] at h
      by_cases hin : inB r c
      · rw [if_pos hin] at h
        by_cases hopp : board r c = -player
        · rw [if_pos hopp] at h
          obtain ⟨k, hk, hrun, hkin, hkown, _, hx⟩ := (ih (r+dr) (c+dc) (acc ++ [(r, c)]) x).mp h
          refine ⟨k+1, by omega, ?_, ?_, ?_, Or.inr (by omega), ?_⟩
          · intro i hi
            match i with
            | 0 => simpa using ⟨hin, hopp⟩
            | (j+1) =>
              have hstep := hrun j (by omega)
              rw [e1 j, e2 j] at hstep
              exact hstep
          · have := hkin; rw [e1 k, e2 k] at this; exact this
          · have := hkown; rw [e1 k, e2 k] at this; exact this
          · rcases hx with hx | ⟨j, hj, hxe⟩
            · rcases List.mem_append.mp hx with hx | hx
              · exact Or.inl hx
              · right
                refine ⟨0, by omega, ?_⟩
                simpa using List.mem_singleton.mp hx
            · right
              refine ⟨j+1, by omega, ?_⟩
              rw [← e1 j, ← e2 j]
              exact hxe
        · rw [if_neg hopp] at h
          by_cases hstop : board r c = player ∧ acc ≠ []
          · rw [if_pos hstop] at h
            exact ⟨0, by omega, by intro i hi; exact absurd hi (by omega),
              by simpa using hin, by simpa using hstop.1, Or.inl hstop.2, Or.inl h⟩
          · rw [if_neg hstop] at h; simp at h
      · rw [if_neg hin] at h; simp at h
    · rintro ⟨k, hk, hrun, hkin, hkown, hacc, hx⟩
      simp only [captureRun]
      by_cases hin : inB r c
      · rw [if_pos hin]
        by_cases hopp : board r c = -player
        · rw [if_pos hopp]
          apply (ih (r+dr) (c+dc) (acc ++ [(r, c)]) x).mpr
          cases k with
          | zero =>
            have h0 : board r c = player := by simpa using hkown
            exact absurd (hopp.symm.trans h0) hne
          | succ j =>
            refine ⟨j, by omega, ?_, ?_, ?_, Or.inl (by simp), ?_⟩
            · intro i hi
              have hstep := hrun (i+1) (by omega)
              rw [e1 i, e2 i]
              exact hstep
            · rw [e1 j, e2 j]; exact hkin
            · rw [e1 j, e2 j]; exact hkown
            · rcases hx with hx | ⟨m, hm, hxe⟩
              · exact Or.inl (List.mem_append.mpr (Or.inl hx))
              · match m with
                | 0 =>
                  left
                  apply List.mem_append.mpr
                  right
                  simp only [List.mem_singleton]
                  simpa using hxe
                | (m+1) =>
                  right
                  refine ⟨m, by omega, ?_⟩
                  rw [e1 m, e2 m]
                  exact hxe
        · rw [if_neg hopp]
          cases k with
          | succ j => exact absurd (by simpa using (hrun 0 (by omega)).2) hopp
          | zero =>
            have h0 : board r c = player := by simpa using hkown
            have hacc0 : acc ≠ [] := by
              rcases hacc with h | h
              · exact h
              · exact absurd h (by omega)
            rw [if_pos ⟨h0, hacc0⟩]
            rcases hx with hx | ⟨m, hm, _⟩
            · exact hx
            · exact absurd hm (by omega)
      · exfalso
        cases k with
        | zero => exact hin (by simpa using hkin)
        | succ j => exact hin (by simpa using (hrun 0 (by omega)).1)

/-- The capture walk reads the board only along its own ray. -/
theorem captureRun_congr (b1 b2 : Board) (player dr dc : Int) :
    ∀ (fuel : Nat) (r c : Int) (acc : List (Int × Int)),
      (∀ i : Nat, i < fuel →
        b1 (r + (i : Int)*dr) (c + (i : Int)*dc) = b2 (r + (i : Int)*dr) (c + (i : Int)*dc)) →
      captureRun b1 player dr dc fuel r c acc = captureRun b2 player dr dc fuel r c acc := by
  intro fuel
  induction fuel with
  | zero => intro r c acc _; rfl
  | succ n ih =>
    intro r c acc hagree
    have h0 : b1 r c = b2 r c := by simpa using hagree 0 (by omega)
    have htail : ∀ i : Nat, i < n →
        b1 ((r+dr) + (i : Int)*dr) ((c+dc) + (i : Int)*dc) =
        b2 ((r+dr) + (i : Int)*dr) ((c+dc) + (i : Int)*dc) := by
      intro i hi
      have e1 : (r + dr) + (i : Int) * dr = r + ((i+1 : Nat) : Int) * dr := by push_cast; ring
      have e2 : (c + dc) + (i : Int) * dc = c + ((i+1 : Nat) : Int) * dc := by push_cast; ring
      rw [e1, e2]
      exact hagree (i+1) (by omega)
    simp only [captureRun, h0]
    by_cases hin : inB r c
    · rw [if_pos hin, if_pos hin]
      by_cases hopp : b2 r c = -player
      · rw [if_pos hopp, if_pos hopp, ih (r+dr) (c+dc) (acc ++ [(r, c)]) htail]
      · rw [if_neg hopp, if_neg hopp]
    · rw [if_neg hin, if_neg hin]

/-- Evaluating a sequence of single-cell flips. -/
theorem flipCells_eval (player : Int) :
    ∀ (l : List (Int × Int)) (b : Board) (x y : Int),
      flipCells b player l x y = if (x, y) ∈ l then player else b x y := by
  intro l
  induction l with
  | nil => intro b x y; simp [flipCells]
  | cons p rest ih =>
    intro b x y
    have hstep : flipCells b player (p :: rest) = flipCells (setCell b p.1 p.2 player) player rest := by
      simp [flipCells]
    rw [hstep, ih]
    by_cases hx : (x, y) ∈ rest
    · rw [if_pos hx, if_pos (List.mem_cons_of_mem _ hx)]
    · rw [if_neg hx]
      unfold setCell
      by_cases hp2 : x = p.1 ∧ y = p.2
      · rw [if_pos hp2, if_pos]
        have hxy : (x, y) = p := by
          obtain ⟨h1, h2⟩ := hp2
          exact Prod.ext h1 h2
        rw [hxy]
        exact List.mem_cons_self p rest
      · rw [if_neg hp2, if_neg]
        intro hmem
        rcases List.mem_cons.mp hmem with h | h
        · exact hp2 ⟨congrArg Prod.fst h, congrArg Prod.snd h⟩
        · exact hx h

/-! ### Ray geometry: rays avoid the origin and never cross each other -/

/-- A cell at least one step out along a direction is never the origin. -/
theorem ray_ne_origin {dr dc : Int} (hd : (dr, dc) ∈ directions) (row col : Int) (i : Nat)
    (hi : 1 ≤ i) : (row + (i : Int)*dr, col + (i : Int)*dc) ≠ (row, col) := by
  simp only [directions, List.mem_cons, List.not_mem_nil, or_false, Prod.mk.injEq] at hd
  intro h
  rw [Prod.mk.injEq] at h
  obtain ⟨ha, hb⟩ := h
  rcases hd with ⟨h1,h2⟩|⟨h1,h2⟩|⟨h1,h2⟩|⟨h1,h2⟩|⟨h1,h2⟩|⟨h1,h2⟩|⟨h1,h2⟩|⟨h1,h2⟩ <;>
    subst h1 <;> subst h2 <;> omega

/-- Cells at least one step out along two distinct directions are
    always distinct: the 8 rays never cross away from the origin. -/
theorem ray_disjoint {d1 d2 : Int × Int} (h1 : d1 ∈ directions) (h2 : d2 ∈ directions)
    (hne : d1 ≠ d2) (row col : Int) (i j : Nat) (hi : 1 ≤ i) (hj : 1 ≤ j) :
    (row + (i : Int)*d1.1, col + (i : Int)*d1.2) ≠ (row + (j : Int)*d2.1, col + (j : Int)*d2.2) := by
  simp only [directions, List.mem_cons, List.not_mem_nil, or_false] at h1 h2
  intro heq
  rw [Prod.mk.injEq] at heq
  obtain ⟨ha, hb⟩ := heq
  rcases h1 with h1|h1|h1|h1|h1|h1|h1|h1 <;> rcases h2 with h2|h2|h2|h2|h2|h2|h2|h2 <;>
    subst h1 <;> subst h2 <;> first
      | exact hne rfl
      | (dsimp only at ha hb; omega)

/-! ### The flip set of place_disc, judged against the pre-move board -/

/-- The claim's capture set: (x, y) lies, for some one of the 8
    directions, on a contiguous run of opposing discs adjacent to the
    target that is terminated by an own disc, everything judged against
    the given (pre-move) board. -/
def specCapture (board : Board) (row col player x y : Int) : Prop :=
  ∃ d ∈ directions, ∃ j k : Nat, 1 ≤ j ∧ j ≤ k ∧
    (x, y) = (row + (j : Int)*d.1, col + (j : Int)*d.2) ∧
    oppRun board player row col d.1 d.2 k

/-- The capture walk of place_disc along one direction, from one step
    out of an in-bounds origin, returns exactly the cells of the
    terminated opposing run of that direction. -/
theorem mem_captureRun_iff_spec (board : Board) (player row col : Int) {dr dc : Int}
    (hp : player ≠ 0) (hd : (dr, dc) ∈ directions) (hin : inB row col) (x : Int × Int) :
    x ∈ captureRun board player dr dc 8 (row + dr) (col + dc) [] ↔
      ∃ j k : Nat, 1 ≤ j ∧ j ≤ k ∧
        x = (row + (j : Int)*dr, col + (j : Int)*dc) ∧
        oppRun board player row col dr dc k := by
  rw [mem_captureRun board player dr dc hp 8 (row + dr) (col + dc) [] x]
  have e1 : ∀ j : Nat, (row + dr) + (j : Int) * dr = row + ((j+1 : Nat) : Int) * dr := by
    intro j; push_cast; ring
  have e2 : ∀ j : Nat, (col + dc) + (j : Int) * dc = col + ((j+1 : Nat) : Int) * dc := by
    intro j; push_cast; ring
  have hc : ∀ k : Nat, ((k+1 : Nat) : Int) = (k : Int) + 1 := by intro k; push_cast; ring
  constructor
  · rintro ⟨k, hk8, hrun, hkin, hkown, hne2, hx⟩
    have hk1 : 1 ≤ k := by
      rcases hne2 with h | h
      · exact absurd rfl h
      · exact h
    rcases hx with hx | ⟨j, hj, hxe⟩
    · simp at hx
    · refine ⟨j+1, k, by omega, by omega, ?_, ?_, ?_⟩
      · rw [hxe, e1 j, e2 j]
      · intro i h1 h2
        have hstep := hrun (i-1) (by omega)
        rw [e1 (i-1), e2 (i-1)] at hstep
        have hi : i - 1 + 1 = i := by omega
        rw [hi] at hstep
        exact hstep
      · constructor
        · have := hkin; rw [e1 k, e2 k, hc k] at this; exact this
        · have := hkown; rw [e1 k, e2 k, hc k] at this; exact this
  · rintro ⟨j, k, hj1, hjk, hxe, hrun, hkin, hkown⟩
    have hbound : k + 1 ≤ 7 := by
      apply dir_bound hd row col (k+1) hin
      rw [hc k]
      exact hkin
    refine ⟨k, by omega, ?_, ?_, ?_, Or.inr (by omega), ?_⟩
    · intro i hi
      have hstep := hrun (i+1) (by omega) (by omega)
      rw [e1 i, e2 i]
      exact hstep
    · rw [e1 k, e2 k, hc k]; exact hkin
    · rw [e1 k, e2 k, hc k]; exact hkown
    · right
      refine ⟨j-1, by omega, ?_⟩
      rw [e1 (j-1), e2 (j-1)]
      have hj : j - 1 + 1 = j := by omega
      rw [hj]
      exact hxe

/-- Processing a duplicate-free batch of directions in sequence flips
    exactly the union of the runs of the individual directions, each run
    judged against the reference board the current board still agrees
    with along every ray. -/
theorem foldl_captures (board : Board) (row col player : Int) (hp : player ≠ 0) :
    ∀ L : List (Int × Int), (∀ d ∈ L, d ∈ directions) → L.Nodup →
      ∀ b : Board,
        (∀ d ∈ L, ∀ i : Nat, 1 ≤ i →
          b (row + (i : Int)*d.1) (col + (i : Int)*d.2) =
          board (row + (i : Int)*d.1) (col + (i : Int)*d.2)) →
        ∀ x y : Int,
          (L.foldl (fun bd d =>
              flipCells bd player (captureRun bd player d.1 d.2 8 (row + d.1) (col + d.2) [])) b) x y =
            if ∃ d ∈ L, (x, y) ∈ captureRun board player d.1 d.2 8 (row + d.1) (col + d.2) []
            then player else b x y := by
  intro L
  induction L with
  | nil =>
    intro _ _ b _ x y
    simp
  | cons d L ih =>
    intro hL hnodup b hagree x y
    have hdmem : d ∈ directions := hL d (List.mem_cons_self d L)
    have hdnotL : d ∉ L := (List.nodup_cons.mp hnodup).1
    have hLdir : ∀ d2 ∈ L, d2 ∈ directions := fun d2 h => hL d2 (List.mem_cons_of_mem _ h)
    have e1 : ∀ (dd : Int) (j : Nat), (row + dd) + (j : Int) * dd = row + ((j+1 : Nat) : Int) * dd := by
      intro dd j; push_cast; ring
    have e2 : ∀ (dd : Int) (j : Nat), (col + dd) + (j : Int) * dd = col + ((j+1 : Nat) : Int) * dd := by
      intro dd j; push_cast; ring
    have hcr : captureRun b player d.1 d.2 8 (row + d.1) (col + d.2) [] =
               captureRun board player d.1 d.2 8 (row + d.1) (col + d.2) [] := by
      apply captureRun_congr
      intro i _
      rw [e1 d.1 i, e2 d.2 i]
      exact hagree d (List.mem_cons_self d L) (i+1) (by omega)
    have hb1eval : ∀ u v : Int,
        flipCells b player (captureRun b player d.1 d.2 8 (row + d.1) (col + d.2) []) u v =
          if (u, v) ∈ captureRun board player d.1 d.2 8 (row + d.1) (col + d.2) []
          then player else b u v := by
      intro u v
      rw [flipCells_eval, hcr]
    rw [List.foldl_cons]
    have hagree2 : ∀ d2 ∈ L, ∀ i : Nat, 1 ≤ i →
        flipCells b player (captureRun b player d.1 d.2 8 (row + d.1) (col + d.2) [])
          (row + (i : Int)*d2.1) (col + (i : Int)*d2.2) =
        board (row + (i : Int)*d2.1) (col + (i : Int)*d2.2) := by
      intro d2 hd2 i hi
      rw [hb1eval]
      rw [if_neg ?notmem]
      · exact hagree d2 (List.mem_cons_of_mem _ hd2) i hi
      case notmem =>
        intro hmem
        obtain ⟨k, _, _, _, _, _, hx⟩ :=
          (mem_captureRun board player d.1 d.2 hp 8 (row + d.1) (col + d.2) [] _).mp hmem
        rcases hx with hx | ⟨j, _, hxe⟩
        · simp at hx
        · rw [e1 d.1 j, e2 d.2 j] at hxe
          have hne : d2 ≠ d := fun h => hdnotL (h ▸ hd2)
          exact ray_disjoint (hLdir d2 hd2) hdmem hne row col i (j+1) hi (by omega) hxe
    rw [ih hLdir (List.nodup_cons.mp hnodup).2 _ hagree2 x y, hb1eval x y]
    by_cases h1 : ∃ d2 ∈ L, (x, y) ∈ captureRun board player d2.1 d2.2 8 (row + d2.1) (col + d2.2) []
    · rw [if_pos h1, if_pos ?c1]
      case c1 =>
        obtain ⟨d2, hd2, hmem⟩ := h1
        exact ⟨d2, List.mem_cons_of_mem _ hd2, hmem⟩
    · rw [if_neg h1]
      by_cases h2 : (x, y) ∈ captureRun board player d.1 d.2 8 (row + d.1) (col + d.2) []
      · rw [if_pos h2, if_pos ⟨d, List.mem_cons_self d L, h2⟩]
      · rw [if_neg h2, if_neg ?c2]
        case c2 =>
          rintro ⟨d2, hd2, hmem⟩
          rcases List.mem_cons.mp hd2 with h | h
          · exact h2 (h ▸ hmem)
          · exact h1 ⟨d2, h, hmem⟩

open Classical in
/-- Pointwise description of place_disc: the target cell becomes the
    player, the capture set of the pre-move board becomes the player,
    and every other cell keeps its pre-move value. -/
theorem place_disc_eq (board : Board) (row col player : Int)
    (hin : inB row col) (hp : player ≠ 0) :
    ∀ x y : Int, place_disc board row col player x y =
      if (x = row ∧ y = col) ∨ specCapture board row col player x y then player
      else board x y := by
  intro x y
  unfold place_disc
  rw [foldl_captures board row col player hp directions (fun d h => h) (by decide)
      (setCell board row col player) ?agree x y]
  case agree =>
    intro d hd i hi
    unfold setCell
    rw [if_neg ?ne]
    case ne =>
      rintro ⟨hx, hy⟩
      have hpd : ((d.1, d.2) : Int × Int) ∈ directions := by
        have : d = (d.1, d.2) := rfl
        rw [← this]; exact hd
      exact ray_ne_origin hpd row col i hi (Prod.ext hx hy)
  have hiff : (∃ d ∈ directions, (x, y) ∈ captureRun board player d.1 d.2 8 (row + d.1) (col + d.2) [])
      ↔ specCapture board row col player x y := by
    constructor
    · rintro ⟨d, hd, hmem⟩
      have hpd : ((d.1, d.2) : Int × Int) ∈ directions := by
        have : d = (d.1, d.2) := rfl
        rw [← this]; exact hd
      obtain ⟨j, k, hj1, hjk, hxe, hrun⟩ :=
        (mem_captureRun_iff_spec board player row col hp hpd hin (x, y)).mp hmem
      exact ⟨d, hd, j, k, hj1, hjk, hxe, hrun⟩
    · rintro ⟨d, hd, j, k, hj1, hjk, hxe, hrun⟩
      have hpd : ((d.1, d.2) : Int × Int) ∈ directions := by
        have : d = (d.1, d.2) := rfl
        rw [← this]; exact hd
      exact ⟨d, hd, (mem_captureRun_iff_spec board player row col hp hpd hin (x, y)).mpr
        ⟨j, k, hj1, hjk, hxe, hrun⟩⟩
  by_cases hcap : specCapture board row col player x y
  · rw [if_pos (hiff.mpr hcap), if_pos (Or.inr hcap)]
  · rw [if_neg (fun h => hcap (hiff.mp h))]
    unfold setCell
    by_cases htgt : x = row ∧ y = col
    · rw [if_pos htgt, if_pos (Or.inl htgt)]
    · rw [if_neg htgt, if_neg ?c3]
      case c3 =>
        rintro (h | h)
        · exact htgt h
        · exact hcap h

/-! ### C2: capture resolution -/

open Classical in
/-- C2: place_disc sets the target to the player and flips exactly the
    union over the 8 directions of the contiguous opposing runs adjacent
    to the target terminated by an own disc, every run judged against
    the pre-move board (so a flip in one direction never affects the walk
    in another, runs flip atomically, and a run ended by an empty cell or
    the edge contributes nothing). -/
theorem C2_capture_resolution (board : Board) (row col player : Int)
    (hin : inB row col) (hp : player = BLACK ∨ player = WHITE) :
    ∀ x y : Int, place_disc board row col player x y =
      if (x = row ∧ y = col) ∨ specCapture board row col player x y then player
      else board x y := by
  have hp0 : player ≠ 0 := by rcases hp with h | h <;> rw [h] <;> decide
  exact place_disc_eq board row col player hin hp0

/-- Witness for C2: black at (2, 3) on the initial board; the white disc
    at (3, 3) lies on a terminated run, so it flips to black. -/
theorem C2_capture_resolution_witness : place_disc init_board 2 3 BLACK 3 3 = BLACK := by
  have hspec : specCapture init_board 2 3 BLACK 3 3 := by
    refine ⟨(1, 0), by decide, 1, 1, le_refl 1, le_refl 1, by decide, ?_, by decide, by decide⟩
    intro i h1 h2
    have hi : i = 1 := by omega
    subst hi
    exact ⟨by decide, by decide⟩
  rw [C2_capture_resolution init_board 2 3 BLACK (by decide) (Or.inl rfl) 3 3,
    if_pos (Or.inr hspec)]

/-! ### C6: executing an invalid move -/

/-- A board on which (0, 0) is occupied by white while the ray to its
    right holds a white disc terminated by a black one. -/
def c6board : Board := fun r c =>
  if r = 0 ∧ c = 0 then -1
  else if r = 0 ∧ c = 1 then -1
  else if r = 0 ∧ c = 2 then 1
  else 0

/-- Counterexample to C6 as stated: the target (0, 0) is invalid for
    black (it is occupied), yet place_disc flips the white disc at
    (0, 1) to black, so a second cell is mutated and a flip performed. -/
theorem C6_counterexample :
    is_valid_move c6board 0 0 BLACK = false ∧
    c6board 0 1 = WHITE ∧ place_disc c6board 0 0 BLACK 0 1 = BLACK := by decide

/-- C6 amended: on an in-bounds EMPTY target that is invalid for the
    acting player, place_disc mutates exactly one cell, the target,
    which is set to the player, and performs zero flips. -/
theorem C6_invalid_empty_target (board : Board) (row col player : Int)
    (hin : inB row col) (hp : player = BLACK ∨ player = WHITE)
    (hempty : board row col = 0)
    (hinvalid : is_valid_move board row col player = false) :
    ∀ x y : Int, place_disc board row col player x y =
      if x = row ∧ y = col then player else board x y := by
  have hp0 : player ≠ 0 := by rcases hp with h | h <;> rw [h] <;> decide
  have hnospec : ∀ x y : Int, ¬ specCapture board row col player x y := by
    rintro x y ⟨d, hd, j, k, hj1, hjk, hxe, hrun⟩
    have hpd : ((d.1, d.2) : Int × Int) ∈ directions := by
      have hdd : d = (d.1, d.2) := rfl
      rw [← hdd]; exact hd
    have hray : raySpec board player row col d.1 d.2 := ⟨k, by omega, hrun⟩
    have hval : validRay board player d.1 d.2 8 (row + d.1) (col + d.2) false = true :=
      (validRay_iff_raySpec board player row col hp0 hpd hin).mpr hray
    have hv : is_valid_move board row col player = true := by
      unfold is_valid_move
      rw [if_neg (by simpa using hempty), List.any_eq_true]
      exact ⟨d, hd, hval⟩
    simp [hv] at hinvalid
  intro x y
  rw [place_disc_eq board row col player hin hp0 x y]
  by_cases htgt : x = row ∧ y = col
  · rw [if_pos (Or.inl htgt), if_pos htgt]
  · rw [if_neg ?c1, if_neg htgt]
    case c1 =>
      rintro (h | h)
      · exact htgt h
      · exact hnospec x y h

/-- Witness for the amended C6: black at the invalid empty corner (0, 0)
    of the initial board places one disc and flips nothing. -/
theorem C6_invalid_empty_target_witness :
    place_disc init_board 0 0 BLACK 0 0 = BLACK ∧
    place_disc init_board 0 0 BLACK 3 3 = init_board 3 3 := by
  have h := C6_invalid_empty_target init_board 0 0 BLACK (by decide) (Or.inl rfl)
    (by decide) (by decide)
  constructor
  · rw [h 0 0, if_pos ⟨rfl, rfl⟩]
  · rw [h 3 3, if_neg (by norm_num)]

/-! ### C10: place_disc only ever writes the acting colour -/

/-- C10: executing a move only ever writes the acting player's value:
    own discs are never flipped, and no cell is set to the opponent's
    colour or cleared; every cell either becomes the player or keeps its
    previous value. -/
theorem C10_writes_only_player (board : Board) (row col player : Int)
    (hin : inB row col) (hp : player = BLACK ∨ player = WHITE) :
    ∀ x y : Int,
      (board x y = player → place_disc board row col player x y = player) ∧
      (place_disc board row col player x y = player ∨
        place_disc board row col player x y = board x y) := by
  have hp0 : player ≠ 0 := by rcases hp with h | h <;> rw [h] <;> decide
  intro x y
  rw [place_disc_eq board row col player hin hp0 x y]
  constructor
  · intro hown
    split_ifs
    · rfl
    · exact hown
  · split_ifs
    · exact Or.inl rfl
    · exact Or.inr rfl

/-- Witness for C10: black plays (2, 3) on the initial board; black's
    own disc at (4, 3) stays black. -/
theorem C10_writes_only_player_witness : place_disc init_board 2 3 BLACK 4 3 = BLACK :=
  (C10_writes_only_player init_board 2 3 BLACK (by decide) (Or.inl rfl) 4 3).1 (by decide)

/-! ### C4: the canonical first capture -/

/-- C4: black at (2, 3) on the initial board flips exactly the white
    disc at (3, 3): the target and (3, 3) become black, every other cell
    keeps its initial value, and count_discs reports (4, 1). -/
theorem C4_first_capture :
    place_disc init_board 2 3 BLACK 3 3 = BLACK ∧ init_board 3 3 = WHITE ∧
    place_disc init_board 2 3 BLACK 2 3 = BLACK ∧
    (∀ x y : Int, ¬(x = 2 ∧ y = 3) → ¬(x = 3 ∧ y = 3) →
      place_disc init_board 2 3 BLACK x y = init_board x y) ∧
    count_discs (place_disc init_board 2 3 BLACK) = (4, 1) := by
  have hspec : ∀ x y : Int, specCapture init_board 2 3 BLACK x y → x = 3 ∧ y = 3 := by
    rintro x y ⟨d, hd, j, k, hj1, hjk, hxe, hrun, hkin, hkown⟩
    simp only [directions, List.mem_cons, List.not_mem_nil, or_false] at hd
    have h1 := hrun 1 (by omega) (by omega)
    rcases hd with h|h|h|h|h|h|h|h <;> subst h
    · exact absurd h1 (by decide)
    · exact absurd h1 (by decide)
    · exact absurd h1 (by decide)
    · exact absurd h1 (by decide)
    · exact absurd h1 (by decide)
    · exact absurd h1 (by decide)
    · by_cases hj : j = 1
      · subst hj
        rw [Prod.mk.injEq] at hxe
        norm_num at hxe
        exact hxe
      · have h2 := hrun 2 (by omega) (by omega)
        exact absurd h2 (by decide)
    · exact absurd h1 (by decide)
  refine ⟨by decide, by decide, by decide, ?_, by decide⟩
  intro x y hne1 hne2
  rw [place_disc_eq init_board 2 3 BLACK (by decide) (by decide) x y, if_neg ?c1]
  case c1 =>
    rintro (h | h)
    · exact hne1 h
    · exact hne2 (hspec x y h)

/-- Witness for C4 at one untouched cell: the frame part applied at
    (5, 5), which is neither the target nor the flipped disc. -/
theorem C4_first_capture_witness : place_disc init_board 2 3 BLACK 5 5 = init_board 5 5 :=
  C4_first_capture.2.2.2.1 5 5 (by decide) (by decide)


/-! ### C7: enumeration and the short-circuit scan -/

/-- Membership in the row-major cell list is exactly the bounds test. -/
theorem mem_allCells (r c : Int) : (r, c) ∈ allCells ↔ inB r c := by
  constructor
  · intro h
    obtain ⟨a, ha, hmem⟩ := List.mem_flatMap.mp h
    obtain ⟨b, hb, heq⟩ := List.mem_map.mp hmem
    rw [List.mem_range] at ha hb
    rw [Prod.mk.injEq] at heq
    obtain ⟨h1, h2⟩ := heq
    unfold inB
    omega
  · intro h
    unfold inB at h
    apply List.mem_flatMap.mpr
    refine ⟨r.toNat, List.mem_range.mpr (by omega), ?_⟩
    apply List.mem_map.mpr
    refine ⟨c.toNat, List.mem_range.mpr (by omega), ?_⟩
    rw [Prod.mk.injEq]
    constructor <;> omega

/-- The row-major cell list has no duplicates. -/
theorem allCells_nodup : allCells.Nodup := by decide

/-- In a duplicate-free list a member is picked out exactly once. -/
theorem filter_count_one {l : List (Int × Int)} {a : Int × Int} (hn : l.Nodup) (ha : a ∈ l) :
    (l.filter (fun q => q = a)).length = 1 := by
  induction l with
  | nil => simp at ha
  | cons p rest ih =>
    rw [List.nodup_cons] at hn
    rcases List.mem_cons.mp ha with h | h
    · rw [List.filter_cons_of_pos (by simp [h.symm])]
      have hnil : rest.filter (fun q => q = a) = [] := by
        apply List.filter_eq_nil_iff.mpr
        intro b hb
        simp only [decide_eq_true_eq]
        intro hba
        rw [hba, h] at hb
        exact hn.1 hb
      rw [hnil]
      rfl
    · have hne : ¬(p = a) := fun he => hn.1 (he ▸ h)
      rw [List.filter_cons_of_neg (by simp [hne])]
      exact ih hn.2 h

/-- C7: has_valid_moves holds iff get_valid_moves is non-empty, and the
    enumeration is duplicate-free and contains a cell iff it is an
    in-bounds cell accepted by is_valid_move, hence each legal cell
    appears exactly once. -/
theorem C7_enumeration (board : Board) (player : Int) :
    (has_valid_moves board player = true ↔ get_valid_moves board player ≠ []) ∧
    (get_valid_moves board player).Nodup ∧
    (∀ r c : Int, (r, c) ∈ get_valid_moves board player ↔
      inB r c ∧ is_valid_move board r c player = true) ∧
    (∀ r c : Int, inB r c → is_valid_move board r c player = true →
      ((get_valid_moves board player).filter (fun q => q = (r, c))).length = 1) := by
  have hmem : ∀ r c : Int, (r, c) ∈ get_valid_moves board player ↔
      inB r c ∧ is_valid_move board r c player = true := by
    intro r c
    unfold get_valid_moves
    rw [List.mem_filter, mem_allCells]
  have hnodup : (get_valid_moves board player).Nodup := allCells_nodup.filter _
  refine ⟨?_, hnodup, hmem, ?_⟩
  · unfold has_valid_moves
    rw [List.any_eq_true]
    constructor
    · rintro ⟨p, hp, hval⟩ hnil
      have hpm : p ∈ get_valid_moves board player := by
        unfold get_valid_moves
        rw [List.mem_filter]
        exact ⟨hp, hval⟩
      rw [hnil] at hpm
      exact absurd hpm (List.not_mem_nil p)
    · intro hne
      obtain ⟨p, hp⟩ := List.exists_mem_of_ne_nil _ hne
      unfold get_valid_moves at hp
      rw [List.mem_filter] at hp
      exact ⟨p, hp.1, hp.2⟩
  · intro r c hin hval
    exact filter_count_one hnodup ((hmem r c).mpr ⟨hin, hval⟩)

/-! ### The gym environment and the main-loop turn protocol -/

/-- The double-pass terminality test shared by env.py step and the main
    loop: neither colour has a legal move anywhere. -/
def gameOver (board : Board) : Bool :=
  !(has_valid_moves board 1) && !(has_valid_moves board (-1))

/-- The state of OthelloGymEnv: the live board and current_player. -/
structure EnvState where
  board : Board
  current_player : Int

/-- step from env.py, as (new state, reward, terminated): decode the
    flat action, reject an invalid move with a -0.1 penalty and no state
    change, otherwise place the disc, hand the turn to the opponent and
    test the double-pass terminality; rewards are modelled as exact
    rationals (-0.1, 1.04, -1, 0). -/
def envStep (s : EnvState) (action : Nat) : EnvState × Rat × Bool :=
  let row : Int := (action / 8 : Nat)
  let col : Int := (action % 8 : Nat)
  if is_valid_move s.board row col s.current_player = false then
    (s, -1/10, false)
  else
    let b := place_disc s.board row col s.current_player
    let p := -s.current_player
    if gameOver b = true then
      let counts := count_discs b
      let reward : Rat :=
        if counts.1 > counts.2 then 26/25
        else if counts.2 > counts.1 then -1
        else 0
      (⟨b, p⟩, reward, true)
    else (⟨b, p⟩, 0, false)

/-- The accepted-move turn handling of the main loop (main.py): place
    the disc, hand the turn to the opponent, revert it if the opponent
    has no legal move, and keep running unless neither colour can move.
    Returns (board, player to move, still running). -/
def mainStep (board : Board) (player r c : Int) : Board × Int × Bool :=
  let b := place_disc board r c player
  let p := -player
  let p2 := if has_valid_moves b p = true then p else -p
  (b, p2, !(gameOver b))

/-- When a colour has no move anywhere, every in-bounds cell fails the
    legality check for it. -/
theorem no_moves_all_invalid (board : Board) (player : Int)
    (h : has_valid_moves board player = false) :
    ∀ r c : Int, inB r c → is_valid_move board r c player = false := by
  intro r c hin
  by_contra hne
  simp only [Bool.not_eq_false] at hne
  have hany : has_valid_moves board player = true := by
    unfold has_valid_moves
    rw [List.any_eq_true]
    exact ⟨(r, c), (mem_allCells r c).mpr hin, hne⟩
  rw [hany] at h
  exact absurd h (by simp)

/-! ### C8: rejection without mutation -/

/-- C8: when the proposed action decodes to a cell that is not a valid
    move for the current player, step leaves the board and the player
    untouched and does not terminate the episode. -/
theorem C8_reject_without_mutation (s : EnvState) (action : Nat)
    (hinv : is_valid_move s.board ((action / 8 : Nat) : Int) ((action % 8 : Nat) : Int)
      s.current_player = false) :
    (envStep s action).1.board = s.board ∧
    (envStep s action).1.current_player = s.current_player ∧
    (envStep s action).2.1 = -1/10 ∧
    (envStep s action).2.2 = false := by
  unfold envStep
  rw [if_pos hinv]
  exact ⟨rfl, rfl, rfl, rfl⟩

/-- Witness for C8: action 0 proposes the invalid corner (0, 0) for
    black on the initial board; the environment rejects it unchanged. -/
theorem C8_reject_without_mutation_witness :
    (envStep ⟨init_board, BLACK⟩ 0).1.board = init_board ∧
    (envStep ⟨init_board, BLACK⟩ 0).1.current_player = BLACK ∧
    (envStep ⟨init_board, BLACK⟩ 0).2.1 = -1/10 ∧
    (envStep ⟨init_board, BLACK⟩ 0).2.2 = false :=
  C8_reject_without_mutation ⟨init_board, BLACK⟩ 0 (by decide)

/-! ### C5: the turn state machine -/

/-- A board where black to move can play (3, 7), after which white
    still owns a disc at (3, 1) but has no legal reply while black can
    still play (3, 0). -/
def c5board : Board := fun r c =>
  if r = 3 ∧ c = 1 then -1
  else if r = 3 ∧ c = 6 then -1
  else if r = 3 ∧ (2 ≤ c ∧ c ≤ 5) then 1
  else 0

/-- Counterexample to C5 as stated about env.py: after black's accepted
    move (3, 7) the opponent (white) has no legal move while black does,
    so the claimed state machine requires the turn to revert to black;
    the environment's step instead leaves white to move (and does not
    terminate), so the pass transition is absent from env.py. -/
theorem C5_counterexample :
    is_valid_move c5board 3 7 BLACK = true ∧
    has_valid_moves (place_disc c5board 3 7 BLACK) WHITE = false ∧
    has_valid_moves (place_disc c5board 3 7 BLACK) BLACK = true ∧
    (envStep ⟨c5board, BLACK⟩ 31).1.current_player = WHITE ∧
    (envStep ⟨c5board, BLACK⟩ 31).2.2 = false := by decide

/-- C5 amended: the interactive main loop realises the claimed state
    machine for accepted moves: the board is updated once by the
    placement, the turn passes to the opponent, it reverts to the mover
    exactly when the opponent has no legal move (with no further disc
    placed), the loop stops exactly when neither colour has a legal move
    (empty cells notwithstanding), and in that terminal state every cell
    is invalid for both colours, so no further move can be accepted.
    The gym environment's step lacks the revert transition. -/
theorem C5_turn_protocol (board : Board) (player r c : Int)
    (_hacc : is_valid_move board r c player = true) :
    (mainStep board player r c).1 = place_disc board r c player ∧
    (has_valid_moves (place_disc board r c player) (-player) = true →
      (mainStep board player r c).2.1 = -player) ∧
    (has_valid_moves (place_disc board r c player) (-player) = false →
      (mainStep board player r c).2.1 = player) ∧
    ((mainStep board player r c).2.2 = false ↔
      has_valid_moves (place_disc board r c player) 1 = false ∧
      has_valid_moves (place_disc board r c player) (-1) = false) ∧
    ((mainStep board player r c).2.2 = false →
      ∀ x y : Int, inB x y →
        is_valid_move (place_disc board r c player) x y 1 = false ∧
        is_valid_move (place_disc board r c player) x y (-1) = false) := by
  have hterm : (mainStep board player r c).2.2 = false ↔
      has_valid_moves (place_disc board r c player) 1 = false ∧
      has_valid_moves (place_disc board r c player) (-1) = false := by
    unfold mainStep gameOver
    simp
  refine ⟨rfl, ?_, ?_, hterm, ?_⟩
  · intro h
    unfold mainStep
    simp only [h, if_true]
  · intro h
    unfold mainStep
    simp only [h, Bool.false_eq_true, if_false, neg_neg]
  · intro h x y hin
    obtain ⟨h1, h2⟩ := hterm.mp h
    exact ⟨no_moves_all_invalid _ _ h1 x y hin, no_moves_all_invalid _ _ h2 x y hin⟩

/-- Witness for the amended C5: black plays (2, 3) on the initial
    board; white can reply, so the turn passes to white. -/
theorem C5_turn_protocol_witness : (mainStep init_board BLACK 2 3).2.1 = WHITE :=
  (C5_turn_protocol init_board BLACK 2 3 (by decide)).2.1 (by decide)

/-! ### C9: speculative heatmap scoring never touches the live board -/

/-- position_values from heatmap.py. -/
def position_values : List (List Int) :=
  [[100, -20,  10,   5,   5,  10, -20, 100],
   [-20, -40,  -5,  -5,  -5,  -5, -40, -20],
   [ 10,  -5,   5,   1,   1,   5,  -5,  10],
   [  5,  -5,   1,   1,   1,   1,  -5,   5],
   [  5,  -5,   1,   1,   1,   1,  -5,   5],
   [ 10,  -5,   5,   1,   1,   5,  -5,  10],
   [-20, -40,  -5,  -5,  -5,  -5, -40, -20],
   [100, -20,  10,   5,   5,  10, -20, 100]]

/-- The score heatmap.py computes for one move: positional value, plus
    2 per flipped disc, minus 3 per opponent reply after the simulated
    move, clamped into the 1..10 band after the (score + 50) / 20
    normalisation; the simulation runs on a copy of the given board.
    Python float arithmetic is modelled by exact rationals, which only
    matters for the numeric value, not for the frame property. -/
def moveScore (board : Board) (current_player row col : Int) : Rat :=
  let score0 : Int := (position_values.getD row.toNat []).getD col.toNat 0
  let test_board := place_disc board row col current_player
  let countsAfter := count_discs test_board
  let countsBefore := count_discs board
  let flipped : Int :=
    if current_player = 1 then (countsAfter.1 : Int) - (countsBefore.1 : Int) - 1
    else (countsAfter.2 : Int) - (countsBefore.2 : Int) - 1
  let opponent_moves : Int := (get_valid_moves test_board (-current_player)).length
  let score : Int := score0 + flipped * 2 - opponent_moves * 3
  min 10 (max 1 (((score : Rat) + 50) / 20))

/-- calculate_heuristic_scores from heatmap.py, with the live board
    threaded explicitly through the loop: every iteration simulates its
    move on a duplicate of the live board (board.copy()) and passes the
    live board on unwritten; the result is the list of scored moves
    together with the final state of the live board. -/
def calculate_heuristic_scores (board : Board) (current_player : Int)
    (valid_moves : List (Int × Int)) : List ((Int × Int) × Rat) × Board :=
  valid_moves.foldl
    (fun st rc => (st.1 ++ [(rc, moveScore st.2 current_player rc.1 rc.2)], st.2))
    ([], board)

/-- C9: scoring returns the live board exactly as it was, and every
    move's score is the one judged against the original board: each
    simulation acts only on a duplicate, so no speculative evaluation
    mutates the live board or leaks into another move's score. -/
theorem C9_speculation_pure (board : Board) (current_player : Int)
    (valid_moves : List (Int × Int)) :
    (calculate_heuristic_scores board current_player valid_moves).2 = board ∧
    (calculate_heuristic_scores board current_player valid_moves).1 =
      valid_moves.map (fun rc => (rc, moveScore board current_player rc.1 rc.2)) := by
  have key : ∀ (ms : List (Int × Int)) (acc : List ((Int × Int) × Rat)),
      (ms.foldl (fun st rc => (st.1 ++ [(rc, moveScore st.2 current_player rc.1 rc.2)], st.2))
        (acc, board)) =
      (acc ++ ms.map (fun rc => (rc, moveScore board current_player rc.1 rc.2)), board) := by
    intro ms
    induction ms with
    | nil => intro acc; simp
    | cons m rest ih =>
      intro acc
      rw [List.foldl_cons]
      dsimp only
      rw [ih (acc ++ [(m, moveScore board current_player m.1 m.2)])]
      simp
  unfold calculate_heuristic_scores
  rw [key valid_moves []]
  exact ⟨rfl, by simp⟩
